import Mathlib

/-!
Verification of the gpx binary-acquisition pipeline (TypeScript sources under
`src/`): platform/asset matching (`src/platform.ts`), download retry and
archive extraction (`src/downloader.ts`), the cache store (`CacheManager`),
and the persistent registry (`src/registry.ts`).

Each TypeScript function relevant to a claim is shallowly embedded as an
executable Lean definition; filesystem- and network-effects are made explicit
as state values or outcome oracles.  JavaScript strings are modelled as Lean
`String`s, with the JS `String.prototype` operations defined over the
underlying character lists.
-/

/-! ## JavaScript string primitives

`jsIncludes`, `jsToLower`, `jsEndsWith` model `String.prototype.includes`,
`.toLowerCase()` and `.endsWith` (ASCII-level; all inputs of interest are
ASCII filenames). -/

def jsIncludes (hay needle : String) : Bool :=
  decide (needle.data <:+: hay.data)

def jsToLower (s : String) : String :=
  ⟨s.data.map Char.toLower⟩

def jsEndsWith (s suffix : String) : Bool :=
  decide (suffix.data <:+ s.data)

/-- JS `s.split(sep)` over character lists, generalized to a separator
predicate (needed for the `/[-_]/` split in `guessBinaryName`): splits at
every separator character, keeping empty chunks. -/
def splitOnPred (p : Char → Bool) : List Char → List (List Char)
  | [] => [[]]
  | x :: xs =>
    match splitOnPred p xs with
    | [] => [[]]
    | h :: t => if p x then [] :: h :: t else (x :: h) :: t

/-- JS `s.split(c)` for a one-character separator. -/
def splitCharList (c : Char) (l : List Char) : List (List Char) :=
  splitOnPred (fun x => x = c) l

/-- JS `s.split(c)` on strings. -/
def jsSplitChar (c : Char) (s : String) : List String :=
  (splitCharList c s.data).map (fun l => ⟨l⟩)

/-! ## Data model (`src/types.ts`) -/

structure GitHubAsset where
  name : String
  browser_download_url : String
  size : Nat
  content_type : String
deriving Repr, DecidableEq

structure Platform where
  os : String
  arch : String
deriving Repr, DecidableEq

/-! ## PlatformMatcher (`src/platform.ts`) -/

namespace PlatformMatcher

/-- `PlatformMatcher.getOSPatterns` (platform.ts:75–86). -/
def getOSPatterns (os : String) : List String :=
  if os = "darwin" then ["darwin", "apple-darwin", "macos", "osx"]
  else if os = "linux" then
    ["linux", "linux-gnu", "linux-musl", "unknown-linux-gnu", "unknown-linux-musl"]
  else if os = "windows" then ["windows", "win", "pc-windows-msvc", "pc-windows-gnu"]
  else [os]

/-- `PlatformMatcher.getArchPatterns` (platform.ts:91–104). -/
def getArchPatterns (arch : String) : List String :=
  if arch = "x86_64" then ["x86_64", "amd64", "x64"]
  else if arch = "aarch64" then ["aarch64", "arm64"]
  else if arch = "i686" then ["i686", "386", "i386", "x86"]
  else if arch = "armv7" then ["armv7", "arm"]
  else [arch]

/-- `PlatformMatcher.scoreAsset` (platform.ts:109–152), translated
branch-for-branch: source archives score 0; an OS-pattern match is mandatory
(+10); +10 for an architecture match; +5 for `.tar.gz`/`.zip`; +2 more for
`.tar.gz`; checksums/signatures score 0; −5 for debug/dev builds. -/
def scoreAsset (asset : GitHubAsset) (osPatterns archPatterns : List String) : Int :=
  let filename := jsToLower asset.name
  if jsIncludes filename "source" || filename = "source.tar.gz" || filename = "source.zip" then
    0
  else if ¬ osPatterns.any (fun p => jsIncludes filename (jsToLower p)) then
    0
  else
    let score : Int := 10
    let score := score + (if archPatterns.any (fun p => jsIncludes filename (jsToLower p)) then 10 else 0)
    let score := score + (if jsEndsWith filename ".tar.gz" || jsEndsWith filename ".zip" then 5 else 0)
    let score := score + (if jsEndsWith filename ".tar.gz" then 2 else 0)
    if jsIncludes filename "sha256" || jsIncludes filename "sig" || jsIncludes filename "asc" then
      0
    else
      score - (if jsIncludes filename "debug" || jsIncludes filename "dev" then 5 else 0)

/-- One step of the stable descending insertion sort modelling the JS
`Array.prototype.sort((a, b) => b.score - a.score)` call in
`findMatchingAsset`: JS `sort` is stable, and a stable sort by strictly
descending score is exactly insertion past all elements of score `≥` the
inserted one. -/
def insertByScoreDesc (x : GitHubAsset × Int) :
    List (GitHubAsset × Int) → List (GitHubAsset × Int)
  | [] => [x]
  | y :: ys => if y.2 ≤ x.2 then x :: y :: ys else y :: insertByScoreDesc x ys

/-- Stable sort by descending score (the JS `.sort((a, b) => b.score - a.score)`). -/
def sortByScoreDesc : List (GitHubAsset × Int) → List (GitHubAsset × Int)
  | [] => []
  | x :: xs => insertByScoreDesc x (sortByScoreDesc xs)

/-- `PlatformMatcher.findMatchingAsset` (platform.ts:55–70): score every
asset, keep strictly positive scores, sort by descending score (stable), and
return the first asset of the sorted list (or `none`). -/
def findMatchingAsset (assets : List GitHubAsset) (platform : Platform) :
    Option GitHubAsset :=
  let osPatterns := getOSPatterns platform.os
  let archPatterns := getArchPatterns platform.arch
  let scored := assets.map (fun a => (a, scoreAsset a osPatterns archPatterns))
  let filtered := scored.filter (fun x => decide (0 < x.2))
  let sorted := sortByScoreDesc filtered
  (sorted.head?).map (fun x => x.1)

/-- Maximum score of a scored-asset list (the maximum of the `.2`
components; `0` for the empty list, which never arises in use). -/
def maxScoreOf : List (GitHubAsset × Int) → Int
  | [] => 0
  | [x] => x.2
  | x :: y :: ys => max x.2 (maxScoreOf (y :: ys))

/-- Specification-side selection function, following the spec's words: among
the positive-scoring assets, return the first (in original input-list order)
attaining the maximum score. -/
def firstMaxSpec (assets : List GitHubAsset) (platform : Platform) :
    Option GitHubAsset :=
  let osPatterns := getOSPatterns platform.os
  let archPatterns := getArchPatterns platform.arch
  let scored := assets.map (fun a => (a, scoreAsset a osPatterns archPatterns))
  let pos := scored.filter (fun x => decide (0 < x.2))
  ((pos.find? (fun x => decide (x.2 = maxScoreOf pos))).map (fun x => x.1))

end PlatformMatcher

/-! ## Node `path` primitives

`pathJoin` models Node `path.join` (posix): concatenate the non-empty parts
with `/`, then normalize — drop empty and `.` segments, resolve `..`
segments against the stack (dropped at the root of an absolute path, kept at
the head of a relative one), and return `.` for an empty result.
`extname` models Node `path.extname`. -/

/-- Render a segment list as a `/`-separated character list. -/
def joinSegs : List (List Char) → List Char
  | [] => []
  | [s] => s
  | s :: rest => s ++ '/' :: joinSegs rest

/-- One step of Node path normalization: fold a segment onto the stack of
already-normalized segments, resolving `..`. -/
def normStep (isAbs : Bool) (acc : List (List Char)) (seg : List Char) : List (List Char) :=
  if seg = ['.', '.'] then
    match acc.getLast? with
    | some t => if t = ['.', '.'] then acc ++ [seg] else acc.dropLast
    | none => if isAbs then [] else [seg]
  else acc ++ [seg]

/-- Node `path.join` (posix flavor). -/
def pathJoin (parts : List String) : String :=
  let nonEmpty := parts.filter (fun p => decide (p ≠ ""))
  let isAbs := match nonEmpty with
    | [] => false
    | p :: _ => decide (p.data.head? = some '/')
  let rawSegs := (nonEmpty.map (fun p => splitCharList '/' p.data)).flatten
  let segs := rawSegs.filter (fun seg => decide (seg ≠ [] ∧ seg ≠ ['.']))
  let fin := segs.foldl (normStep isAbs) []
  let body := joinSegs fin
  let res := if isAbs then '/' :: body else body
  if res.isEmpty then "." else ⟨res⟩

/-- A well-formed path segment for the cache-path injectivity statement: a
non-empty name that is not the `.` or `..` pseudo-directory and contains no
path separator — exactly the strings `path.join` passes through untouched. -/
def validSeg (s : String) : Prop :=
  s.data ≠ [] ∧ s.data ≠ ['.'] ∧ s.data ≠ ['.', '.'] ∧ '/' ∉ s.data

instance (s : String) : Decidable (validSeg s) := by
  unfold validSeg
  infer_instance

/-- The absolute-path flag `pathJoin` derives for `base :: tail` when every
tail part is a `validSeg` (proof scaffolding for the decomposition of
`pathJoin`). -/
def pjAbs (base : String) : Bool :=
  if base = "" then false else decide (base.data.head? = some '/')

/-- The normalized segment stack contributed by `base` in
`pathJoin (base :: tail)` (proof scaffolding). -/
def pjBase (base : String) : List (List Char) :=
  if base = "" then [] else
    ((splitCharList '/' base.data).filter
      (fun seg => decide (seg ≠ [] ∧ seg ≠ ['.']))).foldl (normStep (pjAbs base)) []

/-- The leading `/` contributed by an absolute `base` (proof scaffolding). -/
def pjPre (base : String) : List Char :=
  if pjAbs base then ['/'] else []

/-- Characters from the last `.` of a list (inclusive) to its end, `none`
when no `.` occurs. -/
def extSuffix : List Char → Option (List Char)
  | [] => none
  | c :: cs =>
    match extSuffix cs with
    | some e => some e
    | none => if c = '.' then some (c :: cs) else none

/-- Node `path.extname`: the extension of the basename, empty when the
basename has no dot, is `.` or `..`, or when its only dot is the leading
character (dotfiles). -/
def extname (p : String) : String :=
  let b := (splitCharList '/' p.data).getLastD []
  if b = ['.'] ∨ b = ['.', '.'] then ""
  else
    match extSuffix b with
    | none => ""
    | some e => if e.length = b.length then "" else ⟨e⟩

/-! ## BinaryMetadata (`src/types.ts`) -/

structure BinaryMetadata where
  repo : String
  version : String
  platform : Platform
  binaryPath : String
  installDate : String
  checksum : Option String
deriving Repr, DecidableEq

/-! ## Downloader (`src/downloader.ts`) -/

namespace Downloader

/-- Observable outcome of one `downloadAsset` call: on which attempt (if
any) the download succeeded, how many attempts failed, the backoff sleeps
performed (in milliseconds, in order), whether the temp file and its
directory were deleted, and whether the call threw. -/
structure DownloadRun where
  success : Option Nat
  failedAttempts : Nat
  waitsMs : List Nat
  cleanedUp : Bool
  raised : Bool
deriving Repr, DecidableEq

/-- The retry loop of `Downloader.downloadAsset` (downloader.ts:35–57),
with the network modelled as an oracle `outcome : Nat → Bool` giving the
success of the `n`-th download attempt (counted from 0):
`attempt = 0; while (attempt < retries) { try { download; return } catch {
attempt++; if (attempt >= retries) { unlink tempFile; rmdir tempDir; throw }
sleep(2^attempt * 1000) } }` followed by a terminal `throw` after the loop
(reachable only when `retries = 0`, in which case no cleanup runs).  The
while loop is translated with structural fuel: each iteration strictly
increases `attempt`, so `retries` units of fuel always outlast the loop, and
the fuel-exhausted row coincides with the loop-condition-false row (the
post-loop `throw` without cleanup). -/
def downloadLoop (outcome : Nat → Bool) (retries : Nat) :
    Nat → Nat → List Nat → DownloadRun
  | 0, attempt, waits =>
    { success := none, failedAttempts := attempt, waitsMs := waits,
      cleanedUp := false, raised := true }
  | fuel + 1, attempt, waits =>
    if attempt < retries then
      if outcome attempt then
        { success := some attempt, failedAttempts := attempt, waitsMs := waits,
          cleanedUp := false, raised := false }
      else if attempt + 1 ≥ retries then
        { success := none, failedAttempts := attempt + 1, waitsMs := waits,
          cleanedUp := true, raised := true }
      else
        downloadLoop outcome retries fuel (attempt + 1) (waits ++ [2 ^ (attempt + 1) * 1000])
    else
      { success := none, failedAttempts := attempt, waitsMs := waits,
        cleanedUp := false, raised := true }

/-- `Downloader.downloadAsset` for a given `retries` configuration and
network outcome oracle. -/
def downloadAsset (retries : Nat) (outcome : Nat → Bool) : DownloadRun :=
  downloadLoop outcome retries retries 0 []

/-- Which extraction routine `extractArchive` dispatches to. -/
inductive ExtractAction where
  | tarGz
  | zip
deriving Repr, DecidableEq

/-- `Downloader.extractArchive` (downloader.ts:112–124 / 398–410): dispatch
on `path.extname(archivePath).toLowerCase()` — `.gz` extensions (and paths
ending in `.tar.gz`) go to tar extraction, `.zip` to zip extraction, and
everything else throws `Unsupported archive format`. -/
def extractArchive (archivePath : String) : Except String ExtractAction :=
  let ext := jsToLower (extname archivePath)
  if ext = ".gz" || jsEndsWith archivePath ".tar.gz" then .ok .tarGz
  else if ext = ".zip" then .ok .zip
  else .error ("Unsupported archive format: " ++ ext)

end Downloader

/-! ## CacheManager (`src/cache.ts`) -/

namespace CacheManager

/-- `CacheManager.getCachePath`: `<cacheDir>/<owner>/<repoName>/<version>/<os>-<arch>`
via `repo.split('/')` and `path.join`.  (For a `repo` without `/`, the JS
destructuring leaves `repoName` undefined and `path.join` would throw; the
claims only concern `owner/name` references, modelled here by the empty
string.) -/
def getCachePath (cacheDir repo version : String) (platform : Platform) : String :=
  let parts := jsSplitChar '/' repo
  let owner := parts.getD 0 ""
  let repoName := parts.getD 1 ""
  let platformKey := platform.os ++ "-" ++ platform.arch
  pathJoin [cacheDir, owner, repoName, version, platformKey]

/-- Contents of one file in the cache tree, as far as `isCached` can
distinguish them: an opaque binary, a `metadata.json` that parses to a
`BinaryMetadata`, or an unparsable file. -/
inductive FileData where
  | binaryFile
  | metaGood (m : BinaryMetadata)
  | metaBad
deriving Repr, DecidableEq

/-- The filesystem visible to the cache: a finite map from paths to file
contents. -/
abbrev CacheFs := List (String × FileData)

/-- `fs.access(p)` succeeding: the path exists. -/
def fileExists (fs : CacheFs) (p : String) : Bool :=
  (fs.lookup p).isSome

/-- `CacheManager.getMetadata`: read `p` and `JSON.parse` it, `null` on any
failure. -/
def readMetadataFile (fs : CacheFs) (p : String) : Option BinaryMetadata :=
  match fs.lookup p with
  | some (.metaGood m) => some m
  | _ => none

/-- The `metadata.json` path of a cache slot. -/
def metadataPath (cacheDir repo version : String) (platform : Platform) : String :=
  pathJoin [getCachePath cacheDir repo version platform, "metadata.json"]

/-- `CacheManager.getMetadata` for a slot. -/
def getMetadata (fs : CacheFs) (cacheDir repo version : String) (platform : Platform) :
    Option BinaryMetadata :=
  readMetadataFile fs (metadataPath cacheDir repo version platform)

/-- `CacheManager.isCached` (cache.ts): `fs.access(metadataPath)`, then
`getMetadata`, then `fs.access(metadata.binaryPath)`; any failure (or a
null metadata) yields `false`. -/
def isCached (fs : CacheFs) (cacheDir repo version : String) (platform : Platform) : Bool :=
  if fileExists fs (metadataPath cacheDir repo version platform) then
    match getMetadata fs cacheDir repo version platform with
    | some m => fileExists fs m.binaryPath
    | none => false
  else false

/-- The `name.replace(/\.(tar\.gz|zip|exe)$/, '')` call in
`guessBinaryName`: strip one matching extension from the end. -/
def stripArchiveExt (s : String) : String :=
  if jsEndsWith s ".tar.gz" then ⟨s.data.take (s.data.length - 7)⟩
  else if jsEndsWith s ".zip" then ⟨s.data.take (s.data.length - 4)⟩
  else if jsEndsWith s ".exe" then ⟨s.data.take (s.data.length - 4)⟩
  else s

/-- `CacheManager.guessBinaryName` (cache.ts): strip the archive extension;
if the lowered name contains the lowered repo name, return the repo name;
otherwise split on `-`/`_` and scan for a part equal to the repo name,
returning the repo name on a hit; fall back to the repo name. -/
def guessBinaryName (filename repoName : String) : String :=
  let name := stripArchiveExt filename
  if jsIncludes (jsToLower name) (jsToLower repoName) then repoName
  else
    let parts := (splitOnPred (fun c => c = '-' || c = '_') name.data).map
      (fun l => (⟨l⟩ : String))
    match parts.find? (fun part => jsToLower part = jsToLower repoName) with
    | some _ => repoName
    | none => repoName

/-- A concrete cache filesystem for exercising `isCached`: the slot's
`metadata.json` is present and parses, but the binary file it references
does not exist (deleted out-of-band). -/
def sampleMeta : BinaryMetadata :=
  { repo := "o/r", version := "1.0", platform := ⟨"linux", "x86_64"⟩,
    binaryPath := "/c/o/r/1.0/linux-x86_64/r", installDate := "2024-01-01", checksum := none }

def sampleFs : CacheFs := [("/c/o/r/1.0/linux-x86_64/metadata.json", .metaGood sampleMeta)]

/-- The name `CacheManager.cacheBinary` installs the binary under
(cache.ts:58–62): `guessBinaryName(originalFilename, repoName)` plus
`.exe` on Windows, with `repoName = repo.split('/')[1]`. -/
def cachedBinaryName (isWin : Bool) (repo originalFilename : String) : String :=
  let repoName := (jsSplitChar '/' repo).getD 1 ""
  let ext := if isWin then ".exe" else ""
  guessBinaryName originalFilename repoName ++ ext

end CacheManager

/-! ## RegistryManager (`src/registry.ts`) -/

namespace RegistryManager

/-! ### `save()` (registry.ts:71–127), byte-level with fault injection

The registry directory holds three relevant paths: `registry.json`, its
`.backup`, and the `.tmp` staging file, each either absent or holding a byte
string.  `SaveFaults` injects a failure into each fallible filesystem step of
`save()`: the backup `copyFile` (whose errors the source swallows), the temp
`writeFile`, the re-parse `readFile`, and the final `rename`. -/

structure SaveFs where
  registryFile : Option String
  backupFile : Option String
  tempFile : Option String
deriving Repr, DecidableEq

structure SaveFaults where
  copyFails : Bool
  writeFails : Bool
  readTempFails : Bool
  renameFails : Bool
deriving Repr, DecidableEq

/-- The error path of `save()`: unlink the temp file (errors swallowed) and
re-throw. -/
def saveErrorCleanup (fs : SaveFs) : SaveFs × Bool :=
  ({ fs with tempFile := none }, false)

/-- `RegistryManager.save` over a `SaveFs`; `doc` is the serialized new
document (`JSON.stringify(this.registry)`, which always re-parses, so the
verification step can fail only through its `readFile`).  Returns the
resulting filesystem and `true` on success, `false` when `save()` threw. -/
def save (doc : String) (fs : SaveFs) (f : SaveFaults) : SaveFs × Bool :=
  -- step 1: backup the current registry file if it exists (errors swallowed)
  let fs1 := match fs.registryFile with
    | some content => if f.copyFails then fs else { fs with backupFile := some content }
    | none => fs
  -- step 2: write the new document to the temp file
  if f.writeFails then saveErrorCleanup fs1
  else
    let fs2 := { fs1 with tempFile := some doc }
    -- step 3: re-read and re-parse the temp file
    if f.readTempFails then saveErrorCleanup fs2
    -- step 4: atomically rename the temp file over the registry file
    else if f.renameFails then saveErrorCleanup fs2
    else ({ fs2 with registryFile := some doc, tempFile := none }, true)

/-! ### `load()` (registry.ts:25–66), document-level

`load()`'s contract is quantified over on-disk states, so file contents are
modelled structurally: a JSON value tree, with `garbage` for unparsable
bytes; `load()`'s own writes (via `save()`) are the fault-free
specialization of `save` above. -/

inductive JVal where
  | str (s : String)
  | num (n : Int)
  | bool (b : Bool)
  | null
  | arr (elems : List JVal)
  | obj (fields : List (String × JVal))
deriving Repr

/-- One on-disk file as seen through `readFile` + `JSON.parse`: absent
(ENOENT), unparsable, or parsed to a JSON value. -/
inductive FileState where
  | absent
  | garbage
  | parsed (v : JVal)
deriving Repr

/-- The registry directory: `registry.json` and `registry.json.backup`. -/
structure Disk where
  registryFile : FileState
  backupFile : FileState
deriving Repr

/-- First field of a JS object with the given name (JS property lookup). -/
def lookupField : List (String × JVal) → String → Option JVal
  | [], _ => none
  | (k', v) :: rest, k => if k' = k then some v else lookupField rest k

/-- `typeof x === 'string'` for a property lookup result. -/
def isStringField : Option JVal → Bool
  | some (.str _) => true
  | _ => false

/-- `typeof x === 'object'` for a property lookup result (JS: `true` for
objects, arrays and `null`). -/
def isObjectField : Option JVal → Bool
  | some (.obj _) => true
  | some (.arr _) => true
  | some .null => true
  | _ => false

/-- `RegistryManager.isValidRegistry` (registry.ts:266–274):
`registry && typeof registry === 'object' && typeof registry.version ===
'string' && typeof registry.entries === 'object' && typeof
registry.lastUpdated === 'string'`.  A JSON array is a truthy `'object'` but
has none of the named properties; `null` is falsy. -/
def isValidRegistry : JVal → Bool
  | .obj fields =>
    isStringField (lookupField fields "version") &&
    isObjectField (lookupField fields "entries") &&
    isStringField (lookupField fields "lastUpdated")
  | _ => false

/-- JS property assignment on an object value (used for
`this.registry.lastUpdated = new Date().toISOString()` inside `save()`). -/
def setFieldList : List (String × JVal) → String → JVal → List (String × JVal)
  | [], k, v => [(k, v)]
  | (k', v') :: rest, k, v =>
    if k' = k then (k, v) :: rest else (k', v') :: setFieldList rest k v

def setField : JVal → String → JVal → JVal
  | .obj fields, k, v => .obj (setFieldList fields k v)
  | j, _, _ => j

/-- `save()` as invoked from `load()` (fault-free I/O — `load()`'s claim
quantifies over on-disk contents, not over injected write failures): stamp
`lastUpdated`, back up the existing registry file byte-for-byte, and
atomically replace `registry.json` with the serialized document.  Returns
the in-memory registry after the `lastUpdated` mutation, and the new disk. -/
def saveFromLoad (v : JVal) (d : Disk) (now : String) : JVal × Disk :=
  let v' := setField v "lastUpdated" (.str now)
  let backup := match d.registryFile with
    | .absent => d.backupFile
    | st => st
  (v', { registryFile := .parsed v', backupFile := backup })

/-- `RegistryManager.createEmptyRegistry` (registry.ts:248–254). -/
def createEmptyRegistry (now : String) : JVal :=
  .obj [("version", .str "1.0"), ("entries", .obj []), ("lastUpdated", .str now)]

/-- The fallback chain of `load()`: try the `.backup` copy; if it is absent,
unparsable or invalid, reinitialize to an empty registry; in either case
persist via `save()`. -/
def loadFallback (d : Disk) (now : String) : JVal × Disk :=
  match d.backupFile with
  | .parsed b =>
    if isValidRegistry b then saveFromLoad b d now
    else saveFromLoad (createEmptyRegistry now) d now
  | _ => saveFromLoad (createEmptyRegistry now) d now

/-- `RegistryManager.load` (registry.ts:25–66) on first call (no memoized
registry): read and parse `registry.json`, validate it, and on any failure
fall back to the backup or a fresh empty registry.  Returns the registry
value handed to the caller and the resulting disk. -/
def load (d : Disk) (now : String) : JVal × Disk :=
  match d.registryFile with
  | .parsed v => if isValidRegistry v then (v, d) else loadFallback d now
  | _ => loadFallback d now

/-! ### Entry operations (registry.ts:132–184), with JS object identity

`addEntry` stores one freshly allocated entry object under the binary name
and (when different) under the repository's short name; `removeEntry`'s
alias check `registry.entries[repoName] === entry` is JS *reference*
equality.  Object identity is modelled by a heap: `heap[i]` is one JS
object, and the `entries` record maps names to heap indices. -/

structure RegistryEntry where
  repo : String
  binaryName : String
  version : String
  installDate : String
  lastUsed : String
  platform : Platform
deriving Repr, DecidableEq

/-- In-memory `Registry.entries` with JS sharing made explicit. -/
structure RegState where
  heap : List RegistryEntry
  entries : List (String × Nat)
deriving Repr, DecidableEq

/-- JS property read on the `entries` record. -/
def getKey : List (String × Nat) → String → Option Nat
  | [], _ => none
  | (k', v) :: rest, k => if k' = k then some v else getKey rest k

/-- JS property assignment on the `entries` record (insertion-ordered:
existing keys are updated in place, new keys appended). -/
def setKey : List (String × Nat) → String → Nat → List (String × Nat)
  | [], k, v => [(k, v)]
  | (k', v') :: rest, k, v =>
    if k' = k then (k, v) :: rest else (k', v') :: setKey rest k v

/-- JS `delete` on the `entries` record. -/
def delKey (m : List (String × Nat)) (k : String) : List (String × Nat) :=
  m.filter (fun kv => decide (kv.1 ≠ k))

/-- `const [, repoName] = repo.split('/')` — the repository's short name,
`none` when `repo` has no `/` (JS `undefined`). -/
def repoShortName (repo : String) : Option String :=
  (jsSplitChar '/' repo).get? 1

/-- `RegistryManager.addEntry` (registry.ts:132–153): allocate one entry
object, store it under `binaryName`, and also under the repo short name when
that is truthy and differs from `binaryName` (both keys then reference the
same object). -/
def addEntry (st : RegState) (binaryName repo version now : String) (platform : Platform) :
    RegState :=
  let e : RegistryEntry :=
    { repo := repo, binaryName := binaryName, version := version,
      installDate := now, lastUsed := now, platform := platform }
  let idx := st.heap.length
  let entries := setKey st.entries binaryName idx
  let entries := match repoShortName repo with
    | some rn => if rn ≠ "" ∧ rn ≠ binaryName then setKey entries rn idx else entries
    | none => entries
  { heap := st.heap ++ [e], entries := entries }

/-- `RegistryManager.removeEntry` (registry.ts:166–184) on the loaded
in-memory registry: absent names return `false` untouched; otherwise the
primary key is deleted, and the repo-short-name alias is deleted only when
`registry.entries[repoName] === entry` — i.e. only when the alias still
references the very heap object being removed. -/
def removeEntry (st : RegState) (binaryName : String) : RegState × Bool :=
  match getKey st.entries binaryName with
  | none => (st, false)
  | some idx =>
    let entries := delKey st.entries binaryName
    match st.heap[idx]? with
    | none => ({ st with entries := entries }, true)
    | some e =>
      let entries := match repoShortName e.repo with
        | some rn =>
          if rn ≠ "" ∧ rn ≠ binaryName ∧ getKey entries rn = some idx then delKey entries rn
          else entries
        | none => entries
      ({ st with entries := entries }, true)

/-- `JSON.stringify` of the entries record: each key is written out with a
*copy* of its entry object's contents (sharing is not preserved by JSON). -/
def serializeEntries (st : RegState) : List (String × RegistryEntry) :=
  st.entries.filterMap (fun kv => (st.heap[kv.2]?).map (fun e => (kv.1, e)))

/-- `JSON.parse` of a serialized entries document: every key receives its
own freshly allocated object, even keys that were aliases of one object
before serialization. -/
def loadEntries (doc : List (String × RegistryEntry)) : RegState :=
  { heap := doc.map (fun kv => kv.2),
    entries := (List.range doc.length).zip (doc.map (fun kv => kv.1)) |>.map
      (fun iv => (iv.2, iv.1)) }

/-- The registry manager's state around `removeEntry`: the memoized
in-memory registry plus the serialized on-disk document. -/
structure ManagerState where
  memory : RegState
  disk : List (String × RegistryEntry)
deriving Repr, DecidableEq

/-- `removeEntry` including persistence: `save()` runs only on the
`return true` path (registry.ts:170–183). -/
def removeEntryPersist (s : ManagerState) (binaryName : String) : ManagerState × Bool :=
  let (st', found) := removeEntry s.memory binaryName
  if found then ({ memory := st', disk := serializeEntries st' }, true)
  else ({ s with memory := st' }, false)

end RegistryManager

/-! # Theorems

One theorem per claim (C1–C10), with shared helper lemmas.  Counterexample
theorems are closed statements refuting a claim as originally worded;
witness theorems instantiate a claim theorem's hypotheses at concrete
inputs. -/

/-! ## C2 — asset-selection tie-breaking -/

namespace PlatformMatcher

lemma insertByScoreDesc_head (x : GitHubAsset × Int) (l : List (GitHubAsset × Int)) :
    (insertByScoreDesc x l).head? =
      some (match l.head? with
            | none => x
            | some y => if y.2 ≤ x.2 then x else y) := by
  cases l with
  | nil => rfl
  | cons y ys =>
    simp only [insertByScoreDesc, List.head?_cons]
    split <;> simp

lemma maxScoreOf_cons (x : GitHubAsset × Int) (y : GitHubAsset × Int)
    (ys : List (GitHubAsset × Int)) :
    maxScoreOf (x :: y :: ys) = max x.2 (maxScoreOf (y :: ys)) := rfl

lemma find?_maxScoreOf_isSome (x : GitHubAsset × Int) (xs : List (GitHubAsset × Int)) :
    (List.find? (fun z => decide (z.2 = maxScoreOf (x :: xs))) (x :: xs)).isSome := by
  induction xs generalizing x with
  | nil => simp [maxScoreOf, List.find?]
  | cons y ys ih =>
    rw [maxScoreOf_cons]
    rcases max_choice x.2 (maxScoreOf (y :: ys)) with h | h <;> rw [h]
    · simp [List.find?]
    · by_cases hx : x.2 = maxScoreOf (y :: ys)
      · simp [List.find?, hx]
      · rw [List.find?]
        simp only [decide_eq_true_eq, hx, decide_False]
        exact ih y

/-- The head of the stable descending sort is the first list element
attaining the maximal score. -/
lemma head_sortByScoreDesc (l : List (GitHubAsset × Int)) :
    (sortByScoreDesc l).head? = l.find? (fun x => decide (x.2 = maxScoreOf l)) := by
  induction l with
  | nil => rfl
  | cons x xs ih =>
    cases xs with
    | nil => simp [sortByScoreDesc, insertByScoreDesc, maxScoreOf, List.find?]
    | cons y ys =>
      rw [sortByScoreDesc, insertByScoreDesc_head, ih]
      have hsome := find?_maxScoreOf_isSome y ys
      obtain ⟨e, he⟩ := Option.isSome_iff_exists.mp hsome
      have hescore : e.2 = maxScoreOf (y :: ys) := by
        have := List.find?_some he
        simpa using this
      rw [he]
      rw [maxScoreOf_cons]
      rcases le_or_lt (maxScoreOf (y :: ys)) x.2 with hle | hlt
      · rw [max_eq_left hle]
        rw [List.find?_cons_of_pos _ (by simp)]
        simp [hescore, hle]
      · rw [max_eq_right (le_of_lt hlt)]
        rw [List.find?_cons_of_neg _ (by simp [ne_of_lt hlt]), he]
        simp [hescore, not_le.mpr hlt]

/-- C2: `findMatchingAsset` returns the first asset of the input list among
those attaining the maximum positive score — in particular, when two assets
score identically the earlier one wins.  Stated as equality with the
specification-side selection function `firstMaxSpec`. -/
theorem findMatchingAsset_first_of_max (assets : List GitHubAsset) (platform : Platform) :
    findMatchingAsset assets platform = firstMaxSpec assets platform := by
  simp only [findMatchingAsset, firstMaxSpec, head_sortByScoreDesc]

end PlatformMatcher

/-! ## C6 — extraction dispatch, C3 — download retry protocol -/

namespace Downloader

/-- C6 counterexample: the claim says `.tgz` archives are dispatched to tar
extraction, but `path.extname` of a `.tgz` file is `.tgz` (not `.gz`), so
`extractArchive` raises `Unsupported archive format: .tgz`. -/
theorem extractArchive_tgz_unsupported :
    extractArchive "/tmp/release/tool.tgz" =
      .error "Unsupported archive format: .tgz" := by rfl

/-- C6 (amended): `extractArchive` sends every path whose lower-cased
extension is `.gz` (and any path ending in `.tar.gz`) to tar extraction,
every remaining `.zip` to zip extraction, and raises an explicit
`Unsupported archive format` error for everything else (so `.tgz` raises);
it never silently no-ops. -/
theorem extractArchive_dispatch (p : String) :
    (jsToLower (extname p) = ".gz" ∨ jsEndsWith p ".tar.gz" = true →
      extractArchive p = .ok .tarGz) ∧
    (jsToLower (extname p) ≠ ".gz" → jsEndsWith p ".tar.gz" = false →
      jsToLower (extname p) = ".zip" → extractArchive p = .ok .zip) ∧
    (jsToLower (extname p) ≠ ".gz" → jsEndsWith p ".tar.gz" = false →
      jsToLower (extname p) ≠ ".zip" →
      extractArchive p = .error ("Unsupported archive format: " ++ jsToLower (extname p))) := by
  refine ⟨fun h => ?_, fun h1 h2 h3 => ?_, fun h1 h2 h3 => ?_⟩
  · rcases h with h | h <;> simp [extractArchive, h]
  · simp [extractArchive, h1, h2, h3]
  · simp [extractArchive, h1, h2, h3]

/-- Witness for C6: the three dispatch outcomes at concrete paths. -/
theorem extractArchive_dispatch_witness :
    extractArchive "/d/a.tar.gz" = .ok .tarGz ∧
    extractArchive "/d/b.zip" = .ok .zip ∧
    extractArchive "/d/c.xz" = .error "Unsupported archive format: .xz" :=
  ⟨(extractArchive_dispatch "/d/a.tar.gz").1 (Or.inl (by rfl)),
   (extractArchive_dispatch "/d/b.zip").2.1 (by decide) (by decide) (by rfl),
   (extractArchive_dispatch "/d/c.xz").2.2 (by decide) (by decide) (by decide)⟩

lemma waits_shift (attempt n : Nat) :
    (2 ^ (attempt + 1) * 1000) ::
      (List.range n).map (fun i => 2 ^ (attempt + 1 + i + 1) * 1000) =
    (List.range (n + 1)).map (fun i => 2 ^ (attempt + i + 1) * 1000) := by
  rw [List.range_succ_eq_map, List.map_cons, List.map_map]
  simp only [List.cons.injEq]
  refine ⟨by norm_num, List.map_congr_left ?_⟩
  intro i _
  simp only [Function.comp_apply]
  have h : attempt + 1 + i + 1 = attempt + Nat.succ i + 1 := by omega
  rw [h]

lemma downloadLoop_all_fail (outcome : Nat → Bool) (retries : Nat) :
    ∀ fuel attempt waits, attempt + fuel = retries → 0 < fuel →
    (∀ j, attempt ≤ j → j < retries → outcome j = false) →
    downloadLoop outcome retries fuel attempt waits =
      { success := none, failedAttempts := retries,
        waitsMs := waits ++ (List.range (fuel - 1)).map (fun i => 2 ^ (attempt + i + 1) * 1000),
        cleanedUp := true, raised := true } := by
  intro fuel
  induction fuel with
  | zero => intro attempt waits _ h2 _; omega
  | succ f ih =>
    intro attempt waits hsum _ hfail
    have hlt : attempt < retries := by omega
    have hoc : outcome attempt = false := hfail attempt (Nat.le_refl _) hlt
    cases f with
    | zero =>
      have hend : attempt + 1 ≥ retries := by omega
      simp [downloadLoop, hlt, hoc, hend, hsum]
    | succ f' =>
      have hnend : ¬ (attempt + 1 ≥ retries) := by omega
      rw [downloadLoop]
      simp only [hlt, if_true, hoc, Bool.false_eq_true, if_false, hnend]
      rw [ih (attempt + 1) _ (by omega) (by omega)
        (fun j hj1 hj2 => hfail j (by omega) hj2)]
      have hlist : waits ++ [2 ^ (attempt + 1) * 1000] ++
          (List.range (f' + 1 - 1)).map (fun i => 2 ^ (attempt + 1 + i + 1) * 1000) =
          waits ++ (List.range (f' + 1 + 1 - 1)).map (fun i => 2 ^ (attempt + i + 1) * 1000) := by
        rw [List.append_assoc, List.singleton_append]
        simp only [Nat.succ_sub_one]
        rw [waits_shift]
      rw [hlist]

lemma downloadLoop_first_success (outcome : Nat → Bool) (retries : Nat) :
    ∀ fuel attempt waits k, attempt + fuel = retries → attempt ≤ k → k < retries →
    outcome k = true → (∀ j, attempt ≤ j → j < k → outcome j = false) →
    downloadLoop outcome retries fuel attempt waits =
      { success := some k, failedAttempts := k,
        waitsMs := waits ++ (List.range (k - attempt)).map (fun i => 2 ^ (attempt + i + 1) * 1000),
        cleanedUp := false, raised := false } := by
  intro fuel
  induction fuel with
  | zero => intro attempt waits k hsum hak hk _ _; omega
  | succ f ih =>
    intro attempt waits k hsum hak hk hok hfail
    have hlt : attempt < retries := by omega
    by_cases hek : attempt = k
    · subst hek
      simp [downloadLoop, hlt, hok]
    · have hoc : outcome attempt = false := hfail attempt (Nat.le_refl _) (by omega)
      have hnend : ¬ (attempt + 1 ≥ retries) := by omega
      rw [downloadLoop]
      simp only [hlt, if_true, hoc, Bool.false_eq_true, if_false, hnend]
      rw [ih (attempt + 1) _ k (by omega) (by omega) hk hok
        (fun j hj1 hj2 => hfail j (by omega) hj2)]
      have hka : k - attempt = (k - (attempt + 1)) + 1 := by omega
      have hlist : waits ++ [2 ^ (attempt + 1) * 1000] ++
          (List.range (k - (attempt + 1))).map (fun i => 2 ^ (attempt + 1 + i + 1) * 1000) =
          waits ++ (List.range (k - attempt)).map (fun i => 2 ^ (attempt + i + 1) * 1000) := by
        rw [List.append_assoc, List.singleton_append, hka, waits_shift]
      rw [hlist]

lemma chain_waits (n : Nat) :
    List.Chain' (· < ·) ((List.range n).map (fun i => 2 ^ (i + 1) * 1000)) := by
  exact ((List.pairwise_lt_range n).map _
    (fun a b hab => (Nat.mul_lt_mul_right (by norm_num : (0 : Nat) < 1000)).mpr
      (Nat.pow_lt_pow_right (by norm_num) (by omega)))).chain'

/-- C3 counterexample: with `retries = 1` the code makes exactly one attempt
and, when it fails, immediately deletes the temp file and raises — it never
performs the one retry the claim promises, even though that retry (attempt
1 of the oracle) would have succeeded; no backoff wait occurs. -/
theorem downloadAsset_retries_is_total_attempts :
    downloadAsset 1 (fun n => decide (1 ≤ n)) =
      { success := none, failedAttempts := 1, waitsMs := [],
        cleanedUp := true, raised := true } ∧
    (fun n => decide (1 ≤ n)) 1 = true := by decide

/-- C3 (amended): `downloadAsset` makes at most `retries` total attempts
(so at most `retries − 1` retries after the first failure), waiting
`2^attempt` seconds between consecutive attempts with `attempt` counted from
1 (strictly increasing waits); if the first `retries` attempts all fail it
deletes the partial temp file and its directory and raises, with no success
recorded (no cache commit); if attempt `k` is the first success it returns
success after exactly `k` failed attempts and `k` backoff waits. -/
theorem downloadAsset_retry_protocol (retries : Nat) (outcome : Nat → Bool)
    (hret : 1 ≤ retries) :
    ((∀ j, j < retries → outcome j = false) →
      downloadAsset retries outcome =
        { success := none, failedAttempts := retries,
          waitsMs := (List.range (retries - 1)).map (fun i => 2 ^ (i + 1) * 1000),
          cleanedUp := true, raised := true }) ∧
    (∀ k, k < retries → outcome k = true → (∀ j, j < k → outcome j = false) →
      downloadAsset retries outcome =
        { success := some k, failedAttempts := k,
          waitsMs := (List.range k).map (fun i => 2 ^ (i + 1) * 1000),
          cleanedUp := false, raised := false }) ∧
    List.Chain' (· < ·) (downloadAsset retries outcome).waitsMs := by
  have hfailEq : (∀ j, j < retries → outcome j = false) →
      downloadAsset retries outcome =
        { success := none, failedAttempts := retries,
          waitsMs := (List.range (retries - 1)).map (fun i => 2 ^ (i + 1) * 1000),
          cleanedUp := true, raised := true } := by
    intro hall
    rw [downloadAsset, downloadLoop_all_fail outcome retries retries 0 []
      (by omega) (by omega) (fun j _ hj => hall j hj)]
    simp only [List.nil_append, Nat.zero_add]
  have hsuccEq : ∀ k, k < retries → outcome k = true → (∀ j, j < k → outcome j = false) →
      downloadAsset retries outcome =
        { success := some k, failedAttempts := k,
          waitsMs := (List.range k).map (fun i => 2 ^ (i + 1) * 1000),
          cleanedUp := false, raised := false } := by
    intro k hk hok hbefore
    rw [downloadAsset, downloadLoop_first_success outcome retries retries 0 [] k
      (by omega) (by omega) hk hok (fun j _ hj => hbefore j hj)]
    simp only [List.nil_append, Nat.zero_add, Nat.sub_zero]
  refine ⟨hfailEq, hsuccEq, ?_⟩
  by_cases hall : ∀ j, j < retries → outcome j = false
  · rw [hfailEq hall]
    exact chain_waits _
  · push_neg at hall
    obtain ⟨j, hj, hoj⟩ := hall
    have hex : ∃ i, i < retries ∧ outcome i = true :=
      ⟨j, hj, by revert hoj; cases outcome j <;> simp⟩
    have hkfind := Nat.find_spec hex
    rw [hsuccEq (Nat.find hex) hkfind.1 hkfind.2 (fun i hi => by
      have := Nat.find_min hex hi
      have hir : i < retries := by omega
      revert this
      cases h : outcome i <;> simp [hir])]
    exact chain_waits _

/-- Witness for C3: three attempts that all fail produce exactly the waits
2000 ms and 4000 ms, cleanup, and a raise. -/
theorem downloadAsset_retry_protocol_witness :
    downloadAsset 3 (fun _ => false) =
      { success := none, failedAttempts := 3, waitsMs := [2000, 4000],
        cleanedUp := true, raised := true } := by
  have h := (downloadAsset_retry_protocol 3 (fun _ => false) (by norm_num)).1
    (fun j _ => rfl)
  rw [h]
  decide

end Downloader

/-! ## C9 — installed binary name, C5 — cache double check -/

namespace CacheManager

lemma guessBinaryName_eq (filename repoName : String) :
    guessBinaryName filename repoName = repoName := by
  simp only [guessBinaryName]
  split
  · rfl
  · split <;> rfl

/-- C9: every branch of `guessBinaryName` returns the repository short name,
so the cached binary's name is exactly the repo short name (plus `.exe` on
Windows) and the original asset filename never influences the name
`cacheBinary` installs under. -/
theorem cached_binary_name_is_repo_name (filename repoName repo : String) (isWin : Bool) :
    guessBinaryName filename repoName = repoName ∧
    cachedBinaryName isWin repo filename =
      (jsSplitChar '/' repo).getD 1 "" ++ (if isWin then ".exe" else "") := by
  refine ⟨guessBinaryName_eq _ _, ?_⟩
  simp only [cachedBinaryName, guessBinaryName_eq]

/-- C5: `isCached` returns `true` only if the slot's metadata file exists
and parses and the binary it references still exists; in particular, when
metadata parses but the referenced binary file is missing, `isCached`
returns `false`. -/
theorem isCached_double_check (fs : CacheFs) (cacheDir repo version : String)
    (platform : Platform) :
    (isCached fs cacheDir repo version platform = true →
      ∃ m, getMetadata fs cacheDir repo version platform = some m ∧
        fileExists fs m.binaryPath = true) ∧
    (∀ m, getMetadata fs cacheDir repo version platform = some m →
      fileExists fs m.binaryPath = false →
      isCached fs cacheDir repo version platform = false) := by
  constructor
  · intro h
    unfold isCached at h
    split at h
    · cases hm : getMetadata fs cacheDir repo version platform with
      | none => rw [hm] at h; exact absurd h (by simp)
      | some m => rw [hm] at h; exact ⟨m, rfl, h⟩
    · exact absurd h (by simp)
  · intro m hm hbin
    unfold isCached
    split
    · rw [hm]; exact hbin
    · rfl

/-- Witness for C5: a slot whose `metadata.json` parses but whose binary
file has been deleted out-of-band is reported as not cached. -/
theorem isCached_double_check_witness :
    isCached sampleFs "/c" "o/r" "1.0" ⟨"linux", "x86_64"⟩ = false :=
  (isCached_double_check sampleFs "/c" "o/r" "1.0" ⟨"linux", "x86_64"⟩).2 sampleMeta
    (by rfl) (by rfl)

end CacheManager

/-! ## C8 — cache-path determinism and injectivity -/

namespace PathLemmas

lemma stringDataInj {s t : String} (h : s.data = t.data) : s = t := by
  cases s
  cases t
  exact congrArg String.mk h

lemma splitOnPred_ne_nil (p : Char → Bool) (l : List Char) : splitOnPred p l ≠ [] := by
  cases l with
  | nil => simp [splitOnPred]
  | cons x xs =>
    simp only [splitOnPred]
    rcases h : splitOnPred p xs with _ | ⟨hh, tt⟩
    · simp
    · simp only [h]
      split <;> simp

lemma splitOnPred_no_sep (p : Char → Bool) (l : List Char)
    (h : ∀ c ∈ l, p c = false) : splitOnPred p l = [l] := by
  induction l with
  | nil => rfl
  | cons x xs ih =>
    simp only [splitOnPred]
    rw [ih (fun c hc => h c (List.mem_cons_of_mem x hc))]
    simp [h x (List.mem_cons_self x xs)]

lemma splitOnPred_append_sep (p : Char → Bool) (a b : List Char) (s : Char)
    (ha : ∀ c ∈ a, p c = false) (hs : p s = true) :
    splitOnPred p (a ++ s :: b) = a :: splitOnPred p b := by
  induction a with
  | nil =>
    simp only [List.nil_append, splitOnPred]
    cases hsp : splitOnPred p b with
    | nil => exact absurd hsp (splitOnPred_ne_nil p b)
    | cons h t => simp [hs]
  | cons x xs ih =>
    simp only [List.cons_append, splitOnPred, List.append_eq]
    rw [ih (fun c hc => ha c (List.mem_cons_of_mem x hc))]
    simp [ha x (List.mem_cons_self x xs)]

lemma splitOnPred_mem_no_sep (p : Char → Bool) :
    ∀ (l : List Char) (seg : List Char), seg ∈ splitOnPred p l → ∀ c ∈ seg, p c = false := by
  intro l
  induction l with
  | nil =>
    intro seg hseg c hc
    simp only [splitOnPred, List.mem_singleton] at hseg
    subst hseg
    cases hc
  | cons x xs ih =>
    intro seg hseg c hc
    simp only [splitOnPred] at hseg
    cases hsp : splitOnPred p xs with
    | nil => exact absurd hsp (splitOnPred_ne_nil p xs)
    | cons h t =>
      rw [hsp] at hseg
      by_cases hpx : p x = true
      · simp only [hpx, if_true, List.mem_cons] at hseg
        rcases hseg with rfl | hseg
        · cases hc
        · exact ih seg (hsp ▸ List.mem_cons.mpr hseg) c hc
      · have hpx' : p x = false := by revert hpx; cases p x <;> simp
        simp only [hpx', Bool.false_eq_true, if_false, List.mem_cons] at hseg
        rcases hseg with rfl | hseg
        · rcases List.mem_cons.mp hc with rfl | hch
          · exact hpx'
          · exact ih h (hsp ▸ List.mem_cons_self h t) c hch
        · exact ih seg (hsp ▸ List.mem_cons_of_mem h hseg) c hc

lemma foldl_normStep_no_dots (ab : Bool) :
    ∀ (segs : List (List Char)) (acc : List (List Char)),
    (∀ s ∈ segs, s ≠ ['.', '.']) →
    List.foldl (normStep ab) acc segs = acc ++ segs := by
  intro segs
  induction segs with
  | nil => intro acc _; simp
  | cons s rest ih =>
    intro acc hs
    simp only [List.foldl_cons]
    rw [show normStep ab acc s = acc ++ [s] from
      by unfold normStep; rw [if_neg (hs s (List.mem_cons_self s rest))]]
    rw [ih (acc ++ [s]) (fun t ht => hs t (List.mem_cons_of_mem s ht))]
    simp

lemma mem_normStep (ab : Bool) (acc : List (List Char)) (seg x : List Char)
    (hx : x ∈ normStep ab acc seg) : x ∈ acc ∨ x = seg := by
  unfold normStep at hx
  by_cases hdot : seg = ['.', '.']
  · rw [if_pos hdot] at hx
    cases hl : acc.getLast? with
    | some t =>
      simp only [hl] at hx
      by_cases ht : t = ['.', '.']
      · rw [if_pos ht] at hx
        rcases List.mem_append.mp hx with h | h
        · exact Or.inl h
        · exact Or.inr (List.mem_singleton.mp h)
      · rw [if_neg ht] at hx
        exact Or.inl (List.dropLast_subset acc hx)
    | none =>
      simp only [hl] at hx
      cases ab with
      | true => simp at hx
      | false =>
        simp at hx
        exact Or.inr hx
  · rw [if_neg hdot] at hx
    rcases List.mem_append.mp hx with h | h
    · exact Or.inl h
    · exact Or.inr (List.mem_singleton.mp h)

lemma mem_foldl_normStep (ab : Bool) :
    ∀ (segs acc : List (List Char)) (x : List Char),
    x ∈ List.foldl (normStep ab) acc segs → x ∈ acc ∨ x ∈ segs := by
  intro segs
  induction segs with
  | nil => intro acc x hx; exact Or.inl hx
  | cons s rest ih =>
    intro acc x hx
    simp only [List.foldl_cons] at hx
    rcases ih (normStep ab acc s) x hx with h | h
    · rcases mem_normStep ab acc s x h with h2 | h2
      · exact Or.inl h2
      · exact Or.inr (h2 ▸ List.mem_cons_self s rest)
    · exact Or.inr (List.mem_cons_of_mem s h)

lemma joinSegs_ne_nil (l : List (List Char)) (hne : l ≠ [])
    (hall : ∀ s ∈ l, s ≠ []) : joinSegs l ≠ [] := by
  cases l with
  | nil => exact absurd rfl hne
  | cons s rest =>
    cases rest with
    | nil => exact hall s (List.mem_cons_self s [])
    | cons r t => simp [joinSegs]

lemma slash_head_extract :
    ∀ (a₁ a₂ r₁ r₂ : List Char), '/' ∉ a₁ → '/' ∉ a₂ →
    a₁ ++ '/' :: r₁ = a₂ ++ '/' :: r₂ → a₁ = a₂ ∧ r₁ = r₂ := by
  intro a₁
  induction a₁ with
  | nil =>
    intro a₂ r₁ r₂ _ h₂ heq
    cases a₂ with
    | nil => simpa using heq
    | cons c cs =>
      simp only [List.nil_append, List.cons_append, List.cons.injEq] at heq
      exact absurd (heq.1 ▸ List.mem_cons_self c cs) h₂
  | cons c cs ih =>
    intro a₂ r₁ r₂ h₁ h₂ heq
    cases a₂ with
    | nil =>
      simp only [List.cons_append, List.nil_append, List.cons.injEq] at heq
      exact absurd (heq.1 ▸ List.mem_cons_self c cs) h₁
    | cons d ds =>
      simp only [List.cons_append, List.cons.injEq] at heq
      obtain ⟨rfl, heq2⟩ := heq
      have hr := ih ds r₁ r₂ (fun hh => h₁ (List.mem_cons_of_mem c hh))
        (fun hh => h₂ (List.mem_cons_of_mem c hh)) heq2
      exact ⟨by rw [hr.1], hr.2⟩

lemma joinSegs_inj :
    ∀ (l₁ l₂ : List (List Char)),
    (∀ s ∈ l₁, s ≠ [] ∧ '/' ∉ s) → (∀ s ∈ l₂, s ≠ [] ∧ '/' ∉ s) →
    joinSegs l₁ = joinSegs l₂ → l₁ = l₂ := by
  intro l₁
  induction l₁ with
  | nil =>
    intro l₂ _ h₂ heq
    cases l₂ with
    | nil => rfl
    | cons b bs =>
      exact absurd heq.symm (joinSegs_ne_nil (b :: bs) (by simp)
        (fun s hs => (h₂ s hs).1))
  | cons a as ih =>
    intro l₂ h₁ h₂ heq
    cases l₂ with
    | nil =>
      exact absurd heq (joinSegs_ne_nil (a :: as) (by simp)
        (fun s hs => (h₁ s hs).1))
    | cons b bs =>
      cases as with
      | nil =>
        cases bs with
        | nil => simpa [joinSegs] using heq
        | cons b2 bs2 =>
          simp only [joinSegs] at heq
          have hmem : '/' ∈ a := heq ▸ List.mem_append.mpr
            (Or.inr (List.mem_cons_self '/' (joinSegs (b2 :: bs2))))
          exact absurd hmem (h₁ a (List.mem_cons_self a [])).2
      | cons a2 as2 =>
        cases bs with
        | nil =>
          simp only [joinSegs] at heq
          have hmem : '/' ∈ b := heq ▸ List.mem_append.mpr
            (Or.inr (List.mem_cons_self '/' (joinSegs (a2 :: as2))))
          exact absurd hmem (h₂ b (List.mem_cons_self b [])).2
        | cons b2 bs2 =>
          simp only [joinSegs] at heq
          have hab := slash_head_extract a b (joinSegs (a2 :: as2)) (joinSegs (b2 :: bs2))
            (h₁ a (List.mem_cons_self a _)).2 (h₂ b (List.mem_cons_self b _)).2 heq
          have hrest := ih (b2 :: bs2)
            (fun s hs => h₁ s (List.mem_cons_of_mem a hs))
            (fun s hs => h₂ s (List.mem_cons_of_mem b hs)) hab.2
          rw [hab.1, hrest]

end PathLemmas
namespace PathLemmas

lemma string_ne_empty_of_data {t : String} (h : t.data ≠ []) : t ≠ "" :=
  fun hh => h (hh ▸ rfl)

lemma head_ne_slash {t : String} (hne : t.data ≠ []) (hsl : '/' ∉ t.data) :
    decide (t.data.head? = some '/') = false := by
  cases hd : t.data with
  | nil => exact absurd hd hne
  | cons c cs =>
    have : c ≠ '/' := fun hh => hsl (hd ▸ hh ▸ List.mem_cons_self c cs)
    simp [this]

lemma splitCharList_no_slash {t : String} (hsl : '/' ∉ t.data) :
    splitCharList '/' t.data = [t.data] := by
  apply splitOnPred_no_sep
  intro c hc
  have : c ≠ '/' := fun hh => hsl (hh ▸ hc)
  simp [this]

lemma flatten_splits (ts : List String) (h : ∀ t ∈ ts, '/' ∉ t.data) :
    (ts.map (fun p => splitCharList '/' p.data)).flatten = ts.map String.data := by
  induction ts with
  | nil => rfl
  | cons t rest ih =>
    simp only [List.map_cons, List.flatten_cons]
    rw [splitCharList_no_slash (h t (List.mem_cons_self t rest)),
      ih (fun u hu => h u (List.mem_cons_of_mem t hu))]
    rfl

lemma filter_validSeg_strings (ts : List String) (h : ∀ t ∈ ts, validSeg t) :
    ts.filter (fun p => decide (p ≠ "")) = ts := by
  apply List.filter_eq_self.mpr
  intro t ht
  simpa using string_ne_empty_of_data (h t ht).1

lemma filter_validSeg_data (ts : List String) (h : ∀ t ∈ ts, validSeg t) :
    (ts.map String.data).filter (fun seg => decide (seg ≠ [] ∧ seg ≠ ['.'])) =
      ts.map String.data := by
  apply List.filter_eq_self.mpr
  intro seg hseg
  obtain ⟨t, ht, rfl⟩ := List.mem_map.mp hseg
  simpa using ⟨(h t ht).1, (h t ht).2.1⟩

lemma pjBase_ok (base : String) : ∀ s ∈ pjBase base, s ≠ [] ∧ '/' ∉ s := by
  intro s hs
  unfold pjBase at hs
  split at hs
  · cases hs
  · rcases mem_foldl_normStep _ _ _ _ hs with h | h
    · cases h
    · have hmem := List.mem_filter.mp h
      have hnonempty : s ≠ [] := by
        have := hmem.2
        simp only [decide_eq_true_eq] at this
        exact this.1
      refine ⟨hnonempty, fun hsl => ?_⟩
      have := splitOnPred_mem_no_sep _ _ _ hmem.1 '/' hsl
      simp at this

lemma isEmpty_false_of_ne_nil {l : List Char} (h : l ≠ []) : l.isEmpty = false := by
  cases l with
  | nil => exact absurd rfl h
  | cons c cs => rfl

lemma pathJoin_cons (base : String) (ts : List String) (hne : ts ≠ [])
    (hts : ∀ t ∈ ts, validSeg t) :
    (pathJoin (base :: ts)).data = pjPre base ++ joinSegs (pjBase base ++ ts.map String.data) := by
  have hts_data_ok : ∀ s ∈ ts.map String.data, s ≠ [] ∧ '/' ∉ s := by
    intro s hs
    obtain ⟨t, ht, rfl⟩ := List.mem_map.mp hs
    exact ⟨(hts t ht).1, (hts t ht).2.2.2⟩
  have hts_no_dots : ∀ s ∈ ts.map String.data, s ≠ ['.', '.'] := by
    intro s hs
    obtain ⟨t, ht, rfl⟩ := List.mem_map.mp hs
    exact (hts t ht).2.2.1
  have hmapne : ts.map String.data ≠ [] := by
    cases ts with
    | nil => exact absurd rfl hne
    | cons t rest => simp
  by_cases hb : base = ""
  · subst hb
    have hfilter : ("" :: ts).filter (fun p => decide (p ≠ "")) = ts := by
      rw [List.filter_cons]
      simp only [decide_eq_true_eq]
      rw [if_neg (by simp)]
      exact filter_validSeg_strings ts hts
    simp only [pathJoin, hfilter]
    cases hts_struct : ts with
    | nil => exact absurd hts_struct hne
    | cons t rest =>
      have htv := hts t (hts_struct ▸ List.mem_cons_self t rest)
      have habs : decide (t.data.head? = some '/') = false :=
        head_ne_slash htv.1 htv.2.2.2
      simp only [habs, Bool.false_eq_true, if_false]
      rw [← hts_struct]
      rw [flatten_splits ts (fun u hu => (hts u hu).2.2.2)]
      rw [filter_validSeg_data ts hts]
      rw [foldl_normStep_no_dots false (ts.map String.data) [] hts_no_dots]
      simp only [List.nil_append]
      have hjoin_ne : joinSegs (ts.map String.data) ≠ [] :=
        joinSegs_ne_nil _ hmapne (fun s hs => (hts_data_ok s hs).1)
      rw [isEmpty_false_of_ne_nil hjoin_ne]
      simp only [Bool.false_eq_true, if_false]
      show joinSegs (ts.map String.data) = pjPre "" ++ joinSegs (pjBase "" ++ ts.map String.data)
      simp [pjPre, pjAbs, pjBase]
  · have hfilter : (base :: ts).filter (fun p => decide (p ≠ "")) = base :: ts := by
      rw [List.filter_cons]
      simp only [decide_eq_true_eq]
      rw [if_pos hb]
      rw [filter_validSeg_strings ts hts]
    simp only [pathJoin, hfilter]
    have habs : decide (base.data.head? = some '/') = pjAbs base := by
      simp [pjAbs, hb]
    rw [habs]
    simp only [List.map_cons, List.flatten_cons]
    rw [flatten_splits ts (fun u hu => (hts u hu).2.2.2)]
    rw [List.filter_append, filter_validSeg_data ts hts]
    rw [List.foldl_append]
    rw [foldl_normStep_no_dots (pjAbs base) (ts.map String.data) _ hts_no_dots]
    have hbase_eq : List.foldl (normStep (pjAbs base)) []
        ((splitCharList '/' base.data).filter
          (fun seg => decide (seg ≠ [] ∧ seg ≠ ['.']))) = pjBase base := by
      simp [pjBase, hb]
    rw [hbase_eq]
    have hall_ok : ∀ s ∈ pjBase base ++ ts.map String.data, s ≠ [] := by
      intro s hs
      rcases List.mem_append.mp hs with h | h
      · exact (pjBase_ok base s h).1
      · exact (hts_data_ok s h).1
    have happne : pjBase base ++ ts.map String.data ≠ [] := by
      intro hh
      rw [List.append_eq_nil] at hh
      exact hmapne hh.2
    have hjoin_ne : joinSegs (pjBase base ++ ts.map String.data) ≠ [] :=
      joinSegs_ne_nil _ happne hall_ok
    cases hab : pjAbs base with
    | true =>
      simp only [if_true]
      rw [show (('/' :: joinSegs (pjBase base ++ ts.map String.data)).isEmpty = false) from rfl]
      simp only [Bool.false_eq_true, if_false]
      show '/' :: joinSegs (pjBase base ++ ts.map String.data) =
        pjPre base ++ joinSegs (pjBase base ++ ts.map String.data)
      simp [pjPre, hab]
    | false =>
      simp only [Bool.false_eq_true, if_false]
      rw [isEmpty_false_of_ne_nil hjoin_ne]
      simp only [Bool.false_eq_true, if_false]
      show joinSegs (pjBase base ++ ts.map String.data) =
        pjPre base ++ joinSegs (pjBase base ++ ts.map String.data)
      simp [pjPre, hab]


lemma string_append_slash_data (owner rn : String) :
    (owner ++ "/" ++ rn).data = owner.data ++ '/' :: rn.data := by
  rw [String.data_append, String.data_append, List.append_assoc]
  rfl

lemma jsSplitChar_owner_repo (owner rn : String)
    (ho : '/' ∉ owner.data) (hr : '/' ∉ rn.data) :
    jsSplitChar '/' (owner ++ "/" ++ rn) = [owner, rn] := by
  unfold jsSplitChar splitCharList
  rw [string_append_slash_data]
  rw [splitOnPred_append_sep _ _ _ _
    (fun c hc => by
      have hcn : c ≠ '/' := fun hh => ho (hh ▸ hc)
      simp [hcn]) (by simp)]
  rw [splitOnPred_no_sep _ _ (fun c hc => by
    have hcn : c ≠ '/' := fun hh => hr (hh ▸ hc)
    simp [hcn])]
  rfl

lemma getCachePath_eq (cacheDir owner rn v os ar : String)
    (ho : '/' ∉ owner.data) (hr : '/' ∉ rn.data) :
    CacheManager.getCachePath cacheDir (owner ++ "/" ++ rn) v ⟨os, ar⟩ =
      pathJoin [cacheDir, owner, rn, v, os ++ "-" ++ ar] := by
  unfold CacheManager.getCachePath
  rw [jsSplitChar_owner_repo owner rn ho hr]
  rfl

lemma string_append_dash_data (os ar : String) :
    (os ++ "-" ++ ar).data = os.data ++ '-' :: ar.data := by
  rw [String.data_append, String.data_append, List.append_assoc]
  rfl

lemma validSeg_key (os ar : String) (hos : '/' ∉ os.data) (har : '/' ∉ ar.data) :
    validSeg (os ++ "-" ++ ar) := by
  rw [validSeg, string_append_dash_data]
  have hdash : '-' ∈ os.data ++ '-' :: ar.data :=
    List.mem_append.mpr (Or.inr (List.mem_cons_self '-' ar.data))
  refine ⟨by simp, ?_, ?_, ?_⟩
  · intro hh
    rw [hh] at hdash
    simp at hdash
  · intro hh
    rw [hh] at hdash
    simp at hdash
  · intro hh
    rcases List.mem_append.mp hh with h | h
    · exact hos h
    · rcases List.mem_cons.mp h with h2 | h2
      · cases h2
      · exact har h2

end PathLemmas

namespace CacheManager

open PathLemmas

/-- C8: `getCachePath` is a pure function of
`(owner, repoName, version, platformKey)` with `platformKey = os-arch`:
recomputing it on the same tuple yields the same path, and for every two
valid, distinct tuples (segments non-empty, not `.` or `..`, free of `/`)
the produced paths differ. -/
theorem getCachePath_pure_injective
    (cacheDir owner₁ rn₁ v₁ os₁ ar₁ owner₂ rn₂ v₂ os₂ ar₂ : String)
    (h₁o : validSeg owner₁) (h₁r : validSeg rn₁) (h₁v : validSeg v₁)
    (h₂o : validSeg owner₂) (h₂r : validSeg rn₂) (h₂v : validSeg v₂)
    (hos₁ : '/' ∉ os₁.data) (har₁ : '/' ∉ ar₁.data)
    (hos₂ : '/' ∉ os₂.data) (har₂ : '/' ∉ ar₂.data)
    (hdist : (owner₁, rn₁, v₁, os₁ ++ "-" ++ ar₁) ≠ (owner₂, rn₂, v₂, os₂ ++ "-" ++ ar₂)) :
    CacheManager.getCachePath cacheDir (owner₁ ++ "/" ++ rn₁) v₁ ⟨os₁, ar₁⟩ =
      CacheManager.getCachePath cacheDir (owner₁ ++ "/" ++ rn₁) v₁ ⟨os₁, ar₁⟩ ∧
    CacheManager.getCachePath cacheDir (owner₁ ++ "/" ++ rn₁) v₁ ⟨os₁, ar₁⟩ ≠
      CacheManager.getCachePath cacheDir (owner₂ ++ "/" ++ rn₂) v₂ ⟨os₂, ar₂⟩ := by
  refine ⟨rfl, ?_⟩
  intro heq
  have hk₁ : validSeg (os₁ ++ "-" ++ ar₁) := validSeg_key os₁ ar₁ hos₁ har₁
  have hk₂ : validSeg (os₂ ++ "-" ++ ar₂) := validSeg_key os₂ ar₂ hos₂ har₂
  have hts₁ : ∀ t ∈ [owner₁, rn₁, v₁, os₁ ++ "-" ++ ar₁], validSeg t := by
    intro t ht
    simp only [List.mem_cons, List.not_mem_nil, or_false] at ht
    rcases ht with rfl | rfl | rfl | rfl
    · exact h₁o
    · exact h₁r
    · exact h₁v
    · exact hk₁
  have hts₂ : ∀ t ∈ [owner₂, rn₂, v₂, os₂ ++ "-" ++ ar₂], validSeg t := by
    intro t ht
    simp only [List.mem_cons, List.not_mem_nil, or_false] at ht
    rcases ht with rfl | rfl | rfl | rfl
    · exact h₂o
    · exact h₂r
    · exact h₂v
    · exact hk₂
  rw [getCachePath_eq cacheDir owner₁ rn₁ v₁ os₁ ar₁ h₁o.2.2.2 h₁r.2.2.2,
    getCachePath_eq cacheDir owner₂ rn₂ v₂ os₂ ar₂ h₂o.2.2.2 h₂r.2.2.2] at heq
  have hd := congrArg String.data heq
  rw [pathJoin_cons cacheDir _ (by simp) hts₁,
    pathJoin_cons cacheDir _ (by simp) hts₂] at hd
  have hj := List.append_cancel_left hd
  have hok₁ : ∀ s ∈ pjBase cacheDir ++
      [owner₁, rn₁, v₁, os₁ ++ "-" ++ ar₁].map String.data, s ≠ [] ∧ '/' ∉ s := by
    intro s hs
    rcases List.mem_append.mp hs with h | h
    · exact pjBase_ok cacheDir s h
    · obtain ⟨t, ht, rfl⟩ := List.mem_map.mp h
      exact ⟨(hts₁ t ht).1, (hts₁ t ht).2.2.2⟩
  have hok₂ : ∀ s ∈ pjBase cacheDir ++
      [owner₂, rn₂, v₂, os₂ ++ "-" ++ ar₂].map String.data, s ≠ [] ∧ '/' ∉ s := by
    intro s hs
    rcases List.mem_append.mp hs with h | h
    · exact pjBase_ok cacheDir s h
    · obtain ⟨t, ht, rfl⟩ := List.mem_map.mp h
      exact ⟨(hts₂ t ht).1, (hts₂ t ht).2.2.2⟩
  have hlists := joinSegs_inj _ _ hok₁ hok₂ hj
  have htails := List.append_cancel_left hlists
  simp only [List.map_cons, List.map_nil, List.cons.injEq, and_true] at htails
  exact hdist (by rw [stringDataInj htails.1, stringDataInj htails.2.1,
    stringDataInj htails.2.2.1, stringDataInj htails.2.2.2])

/-- Witness for C8: two versions of the same repository land in different
cache paths. -/
theorem getCachePath_pure_injective_witness :
    CacheManager.getCachePath "/root/.cache/gpx" ("o" ++ "/" ++ "r") "1.0" ⟨"linux", "x86_64"⟩ ≠
      CacheManager.getCachePath "/root/.cache/gpx" ("o" ++ "/" ++ "r") "1.1"
        ⟨"linux", "x86_64"⟩ :=
  (getCachePath_pure_injective "/root/.cache/gpx" "o" "r" "1.0" "linux" "x86_64"
    "o" "r" "1.1" "linux" "x86_64"
    (by decide) (by decide) (by decide) (by decide) (by decide) (by decide)
    (by decide) (by decide) (by decide) (by decide) (by decide)).2

end CacheManager

/-! ## C1 — save atomicity, C10 — absent removeEntry, C7 — load recovery,
C4 — conditional alias removal -/

namespace RegistryManager

/-- C1 counterexample: a `save()` that fails at the temp-file write (after
the backup step) leaves `registry.json` intact but has already overwritten
the `.backup` file with a copy of the current `registry.json` — the backup's
previous bytes (`"B"`) are not preserved, contradicting the claim that the
`.backup` copy is left byte-for-byte unchanged by a failed save. -/
theorem save_failed_write_changes_backup :
    (save "NEW" ⟨some "A", some "B", none⟩ ⟨false, true, false, false⟩).2 = false ∧
    (save "NEW" ⟨some "A", some "B", none⟩ ⟨false, true, false, false⟩).1.backupFile ≠
      (⟨some "A", some "B", none⟩ : SaveFs).backupFile := by
  decide

/-- C1 (amended): `save()` stages the new document in a temporary file and
re-parses it before the final rename; whenever any step before the rename
fails, the temp file is deleted, `save()` raises, and `registry.json` is
left byte-for-byte unchanged; `registry.json` only ever changes by being
replaced wholesale with the full new document (never half-written).  The
`.backup` file, however, is overwritten at the start of `save()` with a copy
of the current `registry.json`, so after a failed save it holds the prior
document's bytes rather than its own previous contents. -/
theorem save_atomic (doc : String) (fs : SaveFs) (f : SaveFaults) :
    ((save doc fs f).2 = false →
      (save doc fs f).1.registryFile = fs.registryFile ∧ (save doc fs f).1.tempFile = none) ∧
    ((save doc fs f).1.registryFile = fs.registryFile ∨
      (save doc fs f).1.registryFile = some doc) ∧
    ((save doc fs f).1.backupFile = fs.backupFile ∨
      (save doc fs f).1.backupFile = fs.registryFile) := by
  unfold save saveErrorCleanup
  cases hreg : fs.registryFile <;>
    rcases f with ⟨cf, wf, rf, nf⟩ <;>
    cases cf <;> cases wf <;> cases rf <;> cases nf <;>
    simp [hreg]

/-- Witness for C1: the failed save of the counterexample state leaves
`registry.json` at its prior bytes and no temp file behind. -/
theorem save_atomic_witness :
    (save "NEW" (⟨some "A", some "B", none⟩ : SaveFs) ⟨false, true, false, false⟩).1.registryFile =
      some "A" ∧
    (save "NEW" (⟨some "A", some "B", none⟩ : SaveFs) ⟨false, true, false, false⟩).1.tempFile =
      none :=
  (save_atomic "NEW" ⟨some "A", some "B", none⟩ ⟨false, true, false, false⟩).1 rfl

/-- C10: removing a name that is absent from the loaded registry returns
`false` without calling `save()`, leaving both the in-memory registry and
the on-disk document unchanged. -/
theorem removeEntry_absent_noop (s : ManagerState) (binaryName : String)
    (h : getKey s.memory.entries binaryName = none) :
    removeEntryPersist s binaryName = (s, false) := by
  unfold removeEntryPersist removeEntry
  rw [h]
  rfl

/-- Witness for C10: removing a missing name from an empty registry is a
no-op returning `false`. -/
theorem removeEntry_absent_noop_witness :
    removeEntryPersist ⟨⟨[], []⟩, []⟩ "missing" = (⟨⟨[], []⟩, []⟩, false) :=
  removeEntry_absent_noop ⟨⟨[], []⟩, []⟩ "missing" rfl

lemma lookupField_setFieldList (fields : List (String × JVal)) (k k' : String) (v : JVal) :
    lookupField (setFieldList fields k v) k' =
      if k' = k then some v else lookupField fields k' := by
  induction fields with
  | nil =>
    by_cases h : k' = k
    · subst h; simp [setFieldList, lookupField]
    · simp [setFieldList, lookupField, h, Ne.symm h]
  | cons kv rest ih =>
    obtain ⟨a, b⟩ := kv
    by_cases h : a = k
    · subst h
      simp only [setFieldList, if_pos rfl, lookupField]
      by_cases h2 : a = k'
      · subst h2; simp
      · simp [h2, Ne.symm h2]
    · simp only [setFieldList, if_neg h, lookupField]
      by_cases h2 : a = k'
      · subst h2
        simp [h]
      · simp [h2, ih]

lemma validRegistry_setLastUpdated (v : JVal) (now : String)
    (h : isValidRegistry v = true) :
    isValidRegistry (setField v "lastUpdated" (.str now)) = true := by
  cases v with
  | obj fields =>
    have hver : lookupField (setFieldList fields "lastUpdated" (.str now)) "version" =
        lookupField fields "version" := by
      rw [lookupField_setFieldList]; exact if_neg (by decide)
    have hent : lookupField (setFieldList fields "lastUpdated" (.str now)) "entries" =
        lookupField fields "entries" := by
      rw [lookupField_setFieldList]; exact if_neg (by decide)
    have hlast : lookupField (setFieldList fields "lastUpdated" (.str now)) "lastUpdated" =
        some (.str now) := by
      rw [lookupField_setFieldList]; exact if_pos rfl
    simp only [isValidRegistry, Bool.and_eq_true] at h
    simp only [setField, isValidRegistry, hver, hent, hlast]
    rw [h.1.1, h.1.2]
    rfl
  | str s => simp [isValidRegistry] at h
  | num n => simp [isValidRegistry] at h
  | bool b => simp [isValidRegistry] at h
  | null => simp [isValidRegistry] at h
  | arr l => simp [isValidRegistry] at h

lemma validRegistry_empty (now : String) :
    isValidRegistry (createEmptyRegistry now) = true := by rfl

lemma setLastUpdated_empty (now : String) :
    setField (createEmptyRegistry now) "lastUpdated" (.str now) = createEmptyRegistry now := by
  rfl

/-- C7: for every on-disk state (missing file, unparsable bytes, invalid or
valid document, any backup state) `load()` hands the caller a structurally
valid registry, never surfacing an error: a valid main document is returned
as-is; otherwise a valid backup is restored and persisted; and when both
fail, a fresh empty registry is created and persisted. -/
theorem load_returns_valid_registry (d : Disk) (now : String) :
    isValidRegistry (load d now).1 = true ∧
    (∀ v, d.registryFile = .parsed v → isValidRegistry v = true → load d now = (v, d)) ∧
    ((∀ v, d.registryFile = .parsed v → isValidRegistry v = false) →
      ∀ b, d.backupFile = .parsed b → isValidRegistry b = true →
      (load d now).1 = setField b "lastUpdated" (.str now) ∧
      (load d now).2.registryFile = .parsed ((load d now).1)) ∧
    ((∀ v, d.registryFile = .parsed v → isValidRegistry v = false) →
      (∀ b, d.backupFile = .parsed b → isValidRegistry b = false) →
      (load d now).1 = createEmptyRegistry now ∧
      (load d now).2.registryFile = .parsed (createEmptyRegistry now)) := by
  have hfb : ∀ (hmain : True), isValidRegistry (loadFallback d now).1 = true := by
    intro _
    unfold loadFallback
    cases hb : d.backupFile with
    | parsed b =>
      by_cases hv : isValidRegistry b = true
      · simp only [hv, if_true, saveFromLoad]
        exact validRegistry_setLastUpdated b now hv
      · simp only [hv, if_false, saveFromLoad]
        exact validRegistry_setLastUpdated _ now (validRegistry_empty now)
    | absent => exact validRegistry_setLastUpdated _ now (validRegistry_empty now)
    | garbage => exact validRegistry_setLastUpdated _ now (validRegistry_empty now)
  refine ⟨?_, ?_, ?_, ?_⟩
  · unfold load
    cases hr : d.registryFile with
    | parsed v =>
      by_cases hv : isValidRegistry v = true
      · simp [hv]
      · simp only [hv, if_false]
        exact hfb trivial
    | absent => exact hfb trivial
    | garbage => exact hfb trivial
  · intro v hr hv
    simp [load, hr, hv]
  · intro hmainbad b hb hbv
    have hload : load d now = loadFallback d now := by
      unfold load
      cases hr : d.registryFile with
      | parsed v => simp [hmainbad v hr]
      | absent => rfl
      | garbage => rfl
    rw [hload]
    unfold loadFallback
    rw [hb]
    simp [hbv, saveFromLoad]
  · intro hmainbad hbackbad
    have hload : load d now = loadFallback d now := by
      unfold load
      cases hr : d.registryFile with
      | parsed v => simp [hmainbad v hr]
      | absent => rfl
      | garbage => rfl
    rw [hload]
    unfold loadFallback
    cases hb : d.backupFile with
    | parsed b =>
      simp only [hbackbad b hb, if_false, saveFromLoad, setLastUpdated_empty]
      exact ⟨rfl, rfl⟩
    | absent => exact ⟨setLastUpdated_empty now, by simp [saveFromLoad, setLastUpdated_empty]⟩
    | garbage => exact ⟨setLastUpdated_empty now, by simp [saveFromLoad, setLastUpdated_empty]⟩

/-- Witness for C7: with both `registry.json` and its backup unparsable,
`load()` returns the fresh empty registry and persists it. -/
theorem load_returns_valid_registry_witness :
    (load ⟨.garbage, .garbage⟩ "T").1 = createEmptyRegistry "T" ∧
    (load ⟨.garbage, .garbage⟩ "T").2.registryFile = .parsed (createEmptyRegistry "T") :=
  (load_returns_valid_registry ⟨.garbage, .garbage⟩ "T").2.2.2
    (fun v hv => by cases hv) (fun b hb => by cases hb)

end RegistryManager
namespace MapLemmas

open RegistryManager

lemma getKey_setKey_self (m : List (String × Nat)) (k : String) (v : Nat) :
    getKey (setKey m k v) k = some v := by
  induction m with
  | nil => simp [setKey, getKey]
  | cons kv rest ih =>
    obtain ⟨a, b⟩ := kv
    by_cases h : a = k
    · subst h; simp [setKey, getKey]
    · simp only [setKey, if_neg h, getKey, ih]

lemma getKey_setKey_ne (m : List (String × Nat)) (k k' : String) (v : Nat)
    (h : k' ≠ k) :
    getKey (setKey m k v) k' = getKey m k' := by
  induction m with
  | nil => simp [setKey, getKey, Ne.symm h]
  | cons kv rest ih =>
    obtain ⟨a, b⟩ := kv
    by_cases ha : a = k
    · subst ha
      simp only [setKey, if_pos rfl, getKey]
      rw [if_neg (fun hh => h hh.symm), if_neg (fun hh => h hh.symm)]
    · simp only [setKey, if_neg ha, getKey]
      by_cases ha' : a = k'
      · simp [ha']
      · rw [if_neg ha', if_neg ha']
        exact ih

lemma getKey_delKey_self (m : List (String × Nat)) (k : String) :
    getKey (delKey m k) k = none := by
  induction m with
  | nil => simp [delKey, getKey]
  | cons kv rest ih =>
    obtain ⟨a, b⟩ := kv
    by_cases h : a = k
    · subst h
      simp only [delKey, List.filter_cons, decide_eq_true_eq]
      rw [if_neg (by simp)]
      simpa [delKey] using ih
    · simp only [delKey, List.filter_cons, decide_eq_true_eq]
      rw [if_pos h]
      simp only [getKey]
      rw [if_neg h]
      simpa [delKey] using ih

lemma getKey_delKey_ne (m : List (String × Nat)) (k k' : String) (h : k' ≠ k) :
    getKey (delKey m k) k' = getKey m k' := by
  induction m with
  | nil => simp [delKey, getKey]
  | cons kv rest ih =>
    obtain ⟨a, b⟩ := kv
    by_cases ha : a = k
    · subst ha
      simp only [delKey, List.filter_cons, decide_eq_true_eq]
      rw [if_neg (by simp)]
      simp only [getKey]
      rw [if_neg (fun hh => h hh.symm)]
      exact (by simpa [delKey] using ih : getKey (delKey rest a) k' = getKey rest k') |>.symm ▸ rfl
    · simp only [delKey, List.filter_cons, decide_eq_true_eq]
      rw [if_pos ha]
      simp only [getKey]
      by_cases ha' : a = k'
      · simp [ha']
      · rw [if_neg ha', if_neg ha']
        simpa [delKey] using ih

lemma getKey_delKey_of_none (m : List (String × Nat)) (j k : String)
    (h : getKey m k = none) :
    getKey (delKey m j) k = none := by
  by_cases hj : k = j
  · subst hj; exact getKey_delKey_self m k
  · rw [getKey_delKey_ne m j k hj]; exact h

end MapLemmas

namespace RegistryManager

open MapLemmas

lemma removeEntry_char_none (st : RegState) (name : String) (idx : Nat)
    (hname : getKey st.entries name = some idx) (he : st.heap[idx]? = none) :
    removeEntry st name = ({ heap := st.heap, entries := delKey st.entries name }, true) := by
  unfold removeEntry
  simp only [hname, he]

lemma removeEntry_char_some (st : RegState) (name : String) (idx : Nat) (e : RegistryEntry)
    (hname : getKey st.entries name = some idx) (he : st.heap[idx]? = some e) :
    removeEntry st name = ({ heap := st.heap, entries :=
      (match repoShortName e.repo with
       | some rn =>
         if rn ≠ "" ∧ rn ≠ name ∧ getKey (delKey st.entries name) rn = some idx then
           delKey (delKey st.entries name) rn
         else delKey st.entries name
       | none => delKey st.entries name) }, true) := by
  unfold removeEntry
  simp only [hname, he]

/-- C4: on any registry state (including one freshly reloaded from disk),
`removeEntry(name)` always deletes the primary key and returns `true`; any
other key it deletes must have referenced the very heap object being removed
(JS `===` on the entry); and after a later `addEntry` has reassigned the
repo-short-name alias to a different binary's entry, removing the first
binary leaves the reassigned alias in place, still pointing at the new
entry. -/
theorem removeEntry_alias_conditional (st : RegState) (name : String) (idx : Nat)
    (hname : getKey st.entries name = some idx) :
    (getKey (removeEntry st name).1.entries name = none ∧ (removeEntry st name).2 = true) ∧
    (∀ k j, k ≠ name → getKey st.entries k = some j →
      getKey (removeEntry st name).1.entries k = none → j = idx) ∧
    (∀ e n₂ repo₂ v₂ now₂ p₂ rn,
      st.heap[idx]? = some e →
      repoShortName e.repo = some rn → rn ≠ "" → rn ≠ name →
      repoShortName repo₂ = some rn → n₂ ≠ name → n₂ ≠ rn →
      getKey (removeEntry (addEntry st n₂ repo₂ v₂ now₂ p₂) name).1.entries rn =
        some st.heap.length) := by
  refine ⟨?_, ?_, ?_⟩
  · -- the primary key is always deleted and removeEntry returns true
    cases he : st.heap[idx]? with
    | none =>
      rw [removeEntry_char_none st name idx hname he]
      exact ⟨getKey_delKey_self _ _, rfl⟩
    | some e =>
      rw [removeEntry_char_some st name idx e hname he]
      cases hrn : repoShortName e.repo with
      | none => exact ⟨getKey_delKey_self _ _, rfl⟩
      | some rn =>
        simp only
        by_cases hc : rn ≠ "" ∧ rn ≠ name ∧ getKey (delKey st.entries name) rn = some idx
        · rw [if_pos hc]
          exact ⟨getKey_delKey_of_none _ _ _ (getKey_delKey_self _ _), trivial⟩
        · rw [if_neg hc]
          exact ⟨getKey_delKey_self _ _, trivial⟩
  · -- a second key disappears only if it referenced the removed heap object
    intro k j hk hkj hgone
    cases he : st.heap[idx]? with
    | none =>
      rw [removeEntry_char_none st name idx hname he] at hgone
      simp only at hgone
      rw [getKey_delKey_ne _ _ _ hk, hkj] at hgone
      cases hgone
    | some e =>
      rw [removeEntry_char_some st name idx e hname he] at hgone
      cases hrn : repoShortName e.repo with
      | none =>
        rw [hrn] at hgone
        simp only at hgone
        rw [getKey_delKey_ne _ _ _ hk, hkj] at hgone
        cases hgone
      | some rn =>
        rw [hrn] at hgone
        simp only at hgone
        by_cases hc : rn ≠ "" ∧ rn ≠ name ∧ getKey (delKey st.entries name) rn = some idx
        · rw [if_pos hc] at hgone
          by_cases hkrn : k = rn
          · subst hkrn
            have hval := hc.2.2
            rw [getKey_delKey_ne _ _ _ hk, hkj] at hval
            exact (Option.some_inj.mp hval).symm ▸ rfl
          · rw [getKey_delKey_ne _ _ _ hkrn, getKey_delKey_ne _ _ _ hk, hkj] at hgone
            cases hgone
        · rw [if_neg hc] at hgone
          rw [getKey_delKey_ne _ _ _ hk, hkj] at hgone
          cases hgone
  · -- a reassigned alias survives removal of the original binary
    intro e n₂ repo₂ v₂ now₂ p₂ rn he hrn hrne hrnname hrn₂ hn₂name hn₂rn
    have hidx_lt : idx < st.heap.length := by
      by_contra hcon
      rw [List.getElem?_eq_none (by omega)] at he
      cases he
    have hif : (rn ≠ "" ∧ rn ≠ n₂) := ⟨hrne, fun hh => hn₂rn hh.symm⟩
    have hentries₂ : (addEntry st n₂ repo₂ v₂ now₂ p₂).entries =
        setKey (setKey st.entries n₂ st.heap.length) rn st.heap.length := by
      unfold addEntry
      simp only [hrn₂, if_pos hif]
    have hheap₂ : (addEntry st n₂ repo₂ v₂ now₂ p₂).heap = st.heap ++ [_] :=
      rfl
    have hname₂ : getKey (addEntry st n₂ repo₂ v₂ now₂ p₂).entries name = some idx := by
      rw [hentries₂, getKey_setKey_ne _ _ _ _ (Ne.symm hrnname),
        getKey_setKey_ne _ _ _ _ (Ne.symm hn₂name), hname]
    have hheapidx : (addEntry st n₂ repo₂ v₂ now₂ p₂).heap[idx]? = some e := by
      rw [hheap₂, List.getElem?_append, if_pos hidx_lt]
      exact he
    rw [removeEntry_char_some _ name idx e hname₂ hheapidx, hrn]
    simp only
    have hrnval : getKey (delKey (addEntry st n₂ repo₂ v₂ now₂ p₂).entries name) rn =
        some st.heap.length := by
      rw [getKey_delKey_ne _ _ _ hrnname, hentries₂, getKey_setKey_self]
    have hcond : ¬ (rn ≠ "" ∧ rn ≠ name ∧
        getKey (delKey (addEntry st n₂ repo₂ v₂ now₂ p₂).entries name) rn = some idx) := by
      intro hc
      rw [hrnval] at hc
      have hii := Option.some_inj.mp hc.2.2
      omega
    rw [if_neg hcond]
    exact hrnval


/-- Witness for C4: installing `rg` for `org/ripgrep` and removing it
deletes the `rg` key; after `addEntry("other", "x/ripgrep")` reassigns the
`ripgrep` alias, removing `rg` leaves the reassigned alias intact. -/
theorem removeEntry_alias_conditional_witness :
    getKey (removeEntry (addEntry ⟨[], []⟩ "rg" "org/ripgrep" "v1" "T" ⟨"linux", "x86_64"⟩)
      "rg").1.entries "rg" = none ∧
    getKey (removeEntry (addEntry (addEntry ⟨[], []⟩ "rg" "org/ripgrep" "v1" "T"
      ⟨"linux", "x86_64"⟩) "other" "x/ripgrep" "v2" "T2" ⟨"linux", "x86_64"⟩)
      "rg").1.entries "ripgrep" = some 1 := by
  refine ⟨(removeEntry_alias_conditional _ "rg" 0 (by rfl)).1.1, ?_⟩
  exact (removeEntry_alias_conditional
      (addEntry ⟨[], []⟩ "rg" "org/ripgrep" "v1" "T" ⟨"linux", "x86_64"⟩) "rg" 0 (by rfl)).2.2
    ⟨"org/ripgrep", "rg", "v1", "T", "T", ⟨"linux", "x86_64"⟩⟩
    "other" "x/ripgrep" "v2" "T2" ⟨"linux", "x86_64"⟩ "ripgrep"
    (by rfl) (by rfl) (by decide) (by decide) (by rfl) (by decide) (by decide)

end RegistryManager
